import Mathlib

/-!  Shallow embedding of the causal-inference estimation engine of `testbed.py`.

Real-valued numpy arrays are modelled over `ℚ`; an observed dataset is a triple
of an outcome list `Y : List ℚ`, a treatment-indicator list `D : List Bool`
(the source stores 0/1 integers, used only as boolean masks and as 0/1 factors)
and a covariate matrix `X : List (List ℚ)` whose rows have width `k` (numpy
carries the width in the array shape; the embedding passes `k` explicitly).

The numpy NaN sentinel written into consumed control rows by the
without-replacement matcher is modelled by an `Option`-valued pool:
a consumed row becomes `none`, and `nanargmin` skips `none` entries exactly the
way numpy's `nanargmin` skips all-NaN rows.  Fallible numerical operations
(matrix inversion of a singular matrix, `nanargmin` of an all-NaN slice) are
modelled with `Option` results, `none` standing for the raised exception.  -/

namespace Testbed

/-- Selection of the entries of `l` at the positions where the indicator list
`d` equals `b`; models numpy boolean-mask indexing such as `Y[D==0]`
(which returns a fresh copy, never a view into the caller's array). -/
def sel {α : Type} (b : Bool) (d : List Bool) (l : List α) : List α :=
  (d.zip l).filterMap (fun p => if p.1 = b then some p.2 else none)

/-- Pointwise difference of two covariate rows; models one row of
`dX = X_c - X_t[i]`. -/
def rowSub (a b : List ℚ) : List ℚ :=
  List.zipWith (fun x y => x - y) a b

/-- Sum of squares of a row; models `(dX**2).sum(axis=1)` for one row. -/
def sumSq (l : List ℚ) : ℚ :=
  (l.map (fun x => x * x)).sum

/-- Squared Euclidean distance between a control row and a treated row
(the `else` metric branch of both matchers). -/
def euclidD (xc xt : List ℚ) : ℚ :=
  sumSq (rowSub xc xt)

/-- Index of the first occurrence of the minimum of a list; models
`numpy.argmin`, which returns the first occurrence on ties.  numpy raises on an
empty array; the embedding returns the junk index `0` there, and no statement
in this development evaluates it on an empty list. -/
def argminFirst : List ℚ → ℕ
  | [] => 0
  | x :: t =>
    if t = [] then 0
    else if t.getD (argminFirst t) 0 < x then argminFirst t + 1 else 0

/-- Index of the first occurrence of the minimum among the present (`some`)
entries of a list; models `numpy.nanargmin` over a vector whose NaN entries are
modelled as `none`.  Returns `none` when every entry is missing, modelling the
`All-NaN slice encountered` error numpy raises there. -/
def nanargminFirst : List (Option ℚ) → Option ℕ
  | [] => none
  | none :: t => (nanargminFirst t).map (fun j => j + 1)
  | some x :: t =>
    match nanargminFirst t with
    | none => some 0
    | some j =>
      match t.getD j none with
      | none => some 0
      | some v => if v < x then some (j + 1) else some 0

/-- Greedy without-replacement matching loop (lines 184-195 of the source):
for each treated row in order, take the first index minimising the distance to
the remaining pool, then overwrite that pool entry with the NaN sentinel
(`none`).  Returns `none` if some iteration finds the pool exhausted, modelling
the numpy `nanargmin` error on an all-NaN slice. -/
def greedy (dist : List ℚ → List ℚ → ℚ) :
    List (List ℚ) → List (Option (List ℚ)) → Option (List ℕ)
  | [], _ => some []
  | xt :: ts, pool =>
    match nanargminFirst (pool.map (Option.map (fun xc => dist xc xt))) with
    | none => none
    | some j => (greedy dist ts (pool.set j none)).map (fun ms => j :: ms)

/-- Matrix inversion; models `np.linalg.inv`, which raises `LinAlgError` on a
singular input: the embedding returns `none` exactly when the determinant
vanishes, and the exact inverse `det⁻¹ • adjugate` otherwise. -/
def matInv {k : ℕ} (A : Matrix (Fin k) (Fin k) ℚ) : Option (Matrix (Fin k) (Fin k) ℚ) :=
  if A.det = 0 then none else some (A.det⁻¹ • A.adjugate)

/-- Mean of column `j` of a row-list; helper for the sample covariance. -/
def colMean (rows : List (List ℚ)) (j : ℕ) : ℚ :=
  ((rows.map (fun r => r.getD j 0)).sum) / rows.length

/-- Sample covariance matrix of the pooled covariate rows; models
`np.cov(X, rowvar=0)` (denominator `N - 1`, numpy's default `ddof=1`). -/
def covMat (k : ℕ) (rows : List (List ℚ)) : Matrix (Fin k) (Fin k) ℚ :=
  Matrix.of fun a b =>
    ((rows.map (fun r =>
        (r.getD a 0 - colMean rows a) * (r.getD b 0 - colMean rows b))).sum) /
      ((rows.length : ℚ) - 1)

/-- Mahalanobis quadratic form of one covariate-difference row `d` against the
inverted pooled covariance; models one row of `(dX.dot(inv(V)) * dX).sum(axis=1)`. -/
def mahaD (k : ℕ) (iV : Matrix (Fin k) (Fin k) ℚ) (xc xt : List ℚ) : ℚ :=
  ∑ b : Fin k, (∑ a : Fin k, (rowSub xc xt).getD a 0 * iV a b) * (rowSub xc xt).getD b 0

/-- Entry `a` of the bias-correction design row built from covariate row `r`
with a prepended intercept column; models one entry of `sm.add_constant(X)`. -/
def designEntry (k : ℕ) (r : List ℚ) (a : Fin (k + 1)) : ℚ :=
  if a.val = 0 then 1 else r.getD (a.val - 1) 0

/-- Fitted parameter vector of the regression
`sm.OLS(y, sm.add_constant(rows)).fit().params` (intercept first, then the `k`
slope coefficients).  Modelled through the normal equations `(AᵀA)β = Aᵀy`,
with the Gram matrix accumulated row by row; this coincides with the value the
library computes (a pseudoinverse solve) whenever the design has full column
rank.  On a rank-deficient design the library silently returns a minimum-norm
solution while this embedding returns the zero vector; no claim in scope
depends on the parameter values in that case. -/
def olsPL (k : ℕ) (rows : List (List ℚ)) (y : List ℚ) : Fin (k + 1) → ℚ :=
  let G : Matrix (Fin (k + 1)) (Fin (k + 1)) ℚ := Matrix.of fun a b =>
    (rows.map (fun r => designEntry k r a * designEntry k r b)).sum
  let v : Fin (k + 1) → ℚ := fun a =>
    ((rows.zip y).map (fun p => designEntry k p.1 a * p.2)).sum
  match matInv G with
  | none => fun _ => 0
  | some Gi => Gi.mulVec v

/-- Individual treatment effects of the matched sample (lines 123-128 and
197-203 of the source, which are textually identical given that line 198
re-selects the unmarked control covariates from `X`): with bias correction the
raw outcome differences minus the covariate-gap-weighted slope coefficients
`params[1:]` of the matched-control regression; without it the raw differences. -/
def computeITT (k : ℕ) (bias : Bool) (Yc Yt : List ℚ) (Xc Xt : List (List ℚ))
    (ms : List ℕ) : List ℚ :=
  if bias then
    let p := olsPL k (ms.map (fun m => Xc.getD m [])) (ms.map (fun m => Yc.getD m 0))
    (List.range Yt.length).map (fun i =>
      Yt.getD i 0 - Yc.getD (ms.getD i 0) 0 -
        ∑ j : Fin k, ((Xt.getD i []).getD j 0 - (Xc.getD (ms.getD i 0) []).getD j 0) * p j.succ)
  else
    (List.range Yt.length).map (fun i => Yt.getD i 0 - Yc.getD (ms.getD i 0) 0)

/-- Mean of a list; models `ITT.mean()`. -/
def listMean (l : List ℚ) : ℚ :=
  l.sum / l.length

/-- Match indices of with-replacement matching (lines 112-121): per treated
row the first argmin of the distances to the full control pool.  In the
Mahalanobis branch `np.linalg.inv(V)` is evaluated inside the per-treated loop,
so with no treated rows the inversion never runs; the embedding mirrors that
by returning the empty assignment before consulting `matInv`. -/
def matchIdxWR (k : ℕ) (mahalanobis : Bool) (X Xc Xt : List (List ℚ)) :
    Option (List ℕ) :=
  if mahalanobis then
    if Xt.isEmpty then some [] else
      (matInv (covMat k X)).map (fun iV =>
        Xt.map (fun xt => argminFirst (Xc.map (fun xc => mahaD k iV xc xt))))
  else
    some (Xt.map (fun xt => argminFirst (Xc.map (fun xc => euclidD xc xt))))

/-- With-replacement matching estimator `MatchingWithReplacement(Y, D, X,
mahalanobis, bias_correction)`; splits the data by the indicator, matches each
treated unit to its nearest control, applies the optional bias correction and
returns the mean individual effect. -/
def MatchingWithReplacement (k : ℕ) (Y : List ℚ) (D : List Bool)
    (X : List (List ℚ)) (mahalanobis bias : Bool) : Option ℚ :=
  let Yc := sel false D Y
  let Yt := sel true D Y
  let Xc := sel false D X
  let Xt := sel true D X
  (matchIdxWR k mahalanobis X Xc Xt).map (fun ms =>
    listMean (computeITT k bias Yc Yt Xc Xt ms))

/-- Indices sorting a score list in descending order; models
`np.argsort(pscore)[::-1]`.  Implemented as a stable ascending sort of the
indexed entries followed by reversal; numpy's default unstable quicksort may
order exact ties differently, and no claim in scope depends on tie order. -/
def argsortDesc (l : List ℚ) : List ℕ :=
  (((l.enum).insertionSort (fun a b => a.2 ≤ b.2)).map Prod.fst).reverse

/-- Reindexing of a list by an index list; models fancy indexing `Y[order]`
(which, like boolean masking, returns a fresh copy). -/
def reorder {α : Type} (dflt : α) (order : List ℕ) (l : List α) : List α :=
  order.map (fun j => l.getD j dflt)

/-- Match indices of without-replacement matching (lines 182-195): the greedy
loop over the treated rows in their given order, consuming pool entries.  As in
`matchIdxWR`, the Mahalanobis inversion sits inside the per-treated loop and is
never evaluated when there are no treated rows. -/
def matchIdxWoR (k : ℕ) (mahalanobis : Bool) (Xall Xc Xt : List (List ℚ)) :
    Option (List ℕ) :=
  if mahalanobis then
    if Xt.isEmpty then some [] else
      (matInv (covMat k Xall)).bind (fun iV => greedy (mahaD k iV) Xt (Xc.map some))
  else
    greedy euclidD Xt (Xc.map some)

/-- Without-replacement matching estimator `MatchingWithoutReplacement(Y, D, X,
mahalanobis, bias_correction)`.  When `2*sum(D) > len(D)` it falls back to
`MatchingWithReplacement(Y, D, X, mahalanobis)` — note that the source passes
the metric flag only, so the fallback runs with `bias_correction` at its
default `True`.  Otherwise it sorts the whole dataset by descending propensity
score, re-derives the cohort split, matches greedily and applies the optional
bias correction on the freshly re-selected (unmarked) control covariates.
The propensity scores themselves are the predictions of the external iterative
fit `sm.Logit(D, X).fit()`; the embedding takes the score vector as the
parameter `pscore`, and every claim in scope holds for an arbitrary score
vector. -/
def MatchingWithoutReplacement (k : ℕ) (pscore : List ℚ) (Y : List ℚ)
    (D : List Bool) (X : List (List ℚ)) (mahalanobis bias : Bool) : Option ℚ :=
  if 2 * D.count true > D.length then
    MatchingWithReplacement k Y D X mahalanobis true
  else
    let order := argsortDesc pscore
    let Y2 := reorder 0 order Y
    let D2 := reorder false order D
    let X2 := reorder [] order X
    let Yc := sel false D2 Y2
    let Yt := sel true D2 Y2
    let Xc := sel false D2 X2
    let Xt := sel true D2 X2
    (matchIdxWoR k mahalanobis X2 Xc Xt).map (fun ms =>
      listMean (computeITT k bias Yc Yt Xc Xt ms))

/-- Weight vector returned by `np.linalg.lstsq(X_c.T, X_t[i])[0]`: the
minimum-norm least-squares solution `w` of `X_cᵀ w ≈ x_t`.  Modelled by the
closed form `X_c (X_cᵀ X_c)⁻¹ x_t`, which is the library's exact value whenever
the control Gram matrix `X_cᵀ X_c` is invertible (then the system is consistent
and this `w` is its minimum-norm exact solution); on a singular Gram the
library still returns a least-squares vector while the embedding returns zero,
and every statement about it below carries the nonsingularity hypothesis. -/
def lstsqMinNorm (Nc k : ℕ) (Xc : Matrix (Fin Nc) (Fin k) ℚ) (xt : Fin k → ℚ) :
    Fin Nc → ℚ :=
  match matInv (Xc.transpose * Xc) with
  | none => fun _ => 0
  | some Gi => Xc.mulVec (Gi.mulVec xt)

/-- Synthetic-control estimator `Synthetic(Y_c, Y_t, X_c, X_t)`: per treated
unit the weight vector regressing its covariates on the control covariate rows,
individual effect `Y_t[i] - w · Y_c`, and the mean of the individual effects. -/
def Synthetic (Nc Nt k : ℕ) (Yc : Fin Nc → ℚ) (Yt : Fin Nt → ℚ)
    (Xc : Matrix (Fin Nc) (Fin k) ℚ) (Xt : Matrix (Fin Nt) (Fin k) ℚ) : ℚ :=
  (∑ i : Fin Nt, (Yt i - ∑ c : Fin Nc, lstsqMinNorm Nc k Xc (fun j => Xt i j) c * Yc c)) / Nt

/-- Squared residual of a candidate synthetic weight vector `v`:
the objective `‖vᵀ X_c - x_t‖²` of the least-squares problem. -/
def synthResid (Nc k : ℕ) (Xc : Matrix (Fin Nc) (Fin k) ℚ) (xt : Fin k → ℚ)
    (v : Fin Nc → ℚ) : ℚ :=
  ∑ j : Fin k, (∑ c : Fin Nc, v c * Xc c j - xt j) ^ 2

/-- Row augmentation for the higher-moment mode of the synthetic-control
front end: `np.hstack((X, abs(X), X**2))` acting on one row. -/
def hstack3 (r : List ℚ) : List ℚ :=
  r ++ r.map (fun x => |x|) ++ r.map (fun x => x * x)

/-- Covariate row-list as a `Fin`-indexed matrix (entries beyond the stored
data read as `0`; all uses stay in range). -/
def listToMat (n k : ℕ) (rows : List (List ℚ)) : Matrix (Fin n) (Fin k) ℚ :=
  Matrix.of fun i j => (rows.getD i []).getD j 0

/-- Outcome list as a `Fin`-indexed vector. -/
def listToVec (n : ℕ) (l : List ℚ) : Fin n → ℚ :=
  fun i => l.getD i 0

/-- Front end `SyntheticEstimates(Y, D, X, higher_moments)`: split by the
indicator and run the synthetic-control estimator, optionally augmenting both
covariate blocks with absolute first and second moments. -/
def SyntheticEstimates (k : ℕ) (Y : List ℚ) (D : List Bool) (X : List (List ℚ))
    (higher : Bool) : ℚ :=
  let Yc := sel false D Y
  let Yt := sel true D Y
  let Xc := sel false D X
  let Xt := sel true D X
  if higher then
    Synthetic Yc.length Yt.length (3 * k) (listToVec _ Yc) (listToVec _ Yt)
      (listToMat _ _ (Xc.map hstack3)) (listToMat _ _ (Xt.map hstack3))
  else
    Synthetic Yc.length Yt.length k (listToVec _ Yc) (listToVec _ Yt)
      (listToMat _ _ Xc) (listToMat _ _ Xt)

/-- Fitted parameters of `sm.OLS(y, sm.add_constant(W)).fit()` for a
`Fin`-indexed design (same normal-equation model as `olsPL`; the intercept
column is part of `A` here). -/
def olsParamsM (n m : ℕ) (A : Matrix (Fin n) (Fin m) ℚ) (y : Fin n → ℚ) :
    Fin m → ℚ :=
  match matInv (A.transpose * A) with
  | none => fun _ => 0
  | some Gi => Gi.mulVec (A.transpose.mulVec y)

/-- Treatment indicator as a 0/1 rational; models the integer array `D` used
as a regression column and as `D.sum()`. -/
def indQ {N : ℕ} (D : Fin N → Bool) : Fin N → ℚ :=
  fun i => if D i then 1 else 0

/-- Demeaned covariates `dX = X - X.mean(0)`. -/
def demean (N k : ℕ) (X : Matrix (Fin N) (Fin k) ℚ) : Matrix (Fin N) (Fin k) ℚ :=
  Matrix.of fun i j => X i j - (∑ t : Fin N, X t j) / N

/-- Design matrix of `OLSEstimates` with the prepended constant folded in:
columns are `[constant, D, dX, D*dX]` (line 253 plus `sm.add_constant`). -/
def olsDesign (N k : ℕ) (D : Fin N → Bool) (X : Matrix (Fin N) (Fin k) ℚ) :
    Matrix (Fin N) (Fin (2 * k + 2)) ℚ :=
  Matrix.of fun i j =>
    if h0 : j.val = 0 then 1
    else if h1 : j.val = 1 then indQ D i
    else if h : j.val < k + 2 then
      demean N k X i ⟨j.val - 2, by
        rcases j with ⟨jv, hj⟩
        omega⟩
    else indQ D i * demean N k X i ⟨j.val - 2 - k, by
      rcases j with ⟨jv, hj⟩
      simp only [not_lt] at h
      omega⟩

/-- Regression-adjusted estimator `OLSEstimates(Y, D, X)` (lines 248-258):
one interacted OLS fit, ATT read off as
`params[1] + dot(DdX.sum(0)/D.sum(), params[-k:])`. -/
def OLSEstimates (N k : ℕ) (Y : Fin N → ℚ) (D : Fin N → Bool)
    (X : Matrix (Fin N) (Fin k) ℚ) : ℚ :=
  let p := olsParamsM N (2 * k + 2) (olsDesign N k D X) Y
  p ⟨1, by omega⟩ +
    ∑ j : Fin k,
      ((∑ i : Fin N, indQ D i * demean N k X i j) / (∑ i : Fin N, indQ D i)) *
        p ⟨k + 2 + j.val, by have := j.isLt; omega⟩

/-- Treated cohort as a finite index set. -/
def treatedSet (N : ℕ) (D : Fin N → Bool) : Finset (Fin N) :=
  Finset.univ.filter (fun i => D i = true)

/-- ATT formula of the specification for the OLS estimator: treatment
coefficient plus the dot product of the average demeaned covariates of the
treated units with the interaction coefficients, all coefficients drawn from
the same interacted regression. -/
def specOLSATT (N k : ℕ) (Y : Fin N → ℚ) (D : Fin N → Bool)
    (X : Matrix (Fin N) (Fin k) ℚ) : ℚ :=
  let p := olsParamsM N (2 * k + 2) (olsDesign N k D X) Y
  p ⟨1, by omega⟩ +
    ∑ j : Fin k,
      ((∑ i ∈ treatedSet N D, demean N k X i j) / ((treatedSet N D).card : ℚ)) *
        p ⟨k + 2 + j.val, by have := j.isLt; omega⟩

/-- Number of still-available (non-NaN) entries of the control pool. -/
def countSome (pool : List (Option (List ℚ))) : ℕ :=
  pool.countP (fun o => o.isSome)

/-- Design matrix of the bias-correction regression in explicit matrix form:
row `i` is the `sm.add_constant` row of the `i`-th matched covariate row.
Used on the specification side of the bias-correction claim; the code side
accumulates the same regression row by row in `olsPL`. -/
def addConstMat (n k : ℕ) (rows : List (List ℚ)) : Matrix (Fin n) (Fin (k + 1)) ℚ :=
  Matrix.of fun i a => designEntry k (rows.getD i []) a

/-- Slope coefficient `j` (intercept excluded) of the OLS regression, with
intercept, of the matched-control outcomes on the matched-control covariates,
written in the specification's terms: the parameter vector of the regression
on the explicit intercept-augmented design, read past its first (intercept)
entry. -/
def specSlope (k : ℕ) (Yc : List ℚ) (Xc : List (List ℚ)) (ms : List ℕ) (j : Fin k) : ℚ :=
  olsParamsM ms.length (k + 1)
    (addConstMat ms.length k (ms.map (fun m => Xc.getD m [])))
    (fun i => (ms.map (fun m => Yc.getD m 0)).getD i 0) j.succ

/-- Caller-visible dataset state: the three arrays an estimator call receives.
All numpy subsetting the estimators perform (`Y[D==0]`, `X[order]`) copies, so
in-place writes inside a call (the NaN marking of consumed controls) touch only
per-call local arrays; the wrappers below return the caller's state alongside
the result to make that frame condition a stated fact. -/
structure Dataset where
  Y : List ℚ
  D : List Bool
  X : List (List ℚ)

/-- State-passing wrapper of the with-replacement estimator. -/
def runMatchingWithReplacement (k : ℕ) (s : Dataset) (mahalanobis bias : Bool) :
    Dataset × Option ℚ :=
  (s, MatchingWithReplacement k s.Y s.D s.X mahalanobis bias)

/-- State-passing wrapper of the without-replacement estimator: the
availability marking lives entirely in the per-call pool built from the copied
control rows, so the caller's arrays come back unchanged. -/
def runMatchingWithoutReplacement (k : ℕ) (pscore : List ℚ) (s : Dataset)
    (mahalanobis bias : Bool) : Dataset × Option ℚ :=
  (s, MatchingWithoutReplacement k pscore s.Y s.D s.X mahalanobis bias)

/-- State-passing wrapper of the OLS estimator. -/
def runOLSEstimates (k : ℕ) (s : Dataset) : Dataset × ℚ :=
  (s, OLSEstimates s.D.length k (listToVec s.D.length s.Y)
    (fun i => s.D.getD i false) (listToMat s.D.length k s.X))

/-- State-passing wrapper of the synthetic-control front end. -/
def runSyntheticEstimates (k : ℕ) (s : Dataset) (higher : Bool) : Dataset × ℚ :=
  (s, SyntheticEstimates k s.Y s.D s.X higher)

/-! Helper lemmas about the argmin operations and the greedy loop. -/

theorem argminFirst_lt_length : ∀ (l : List ℚ), l ≠ [] → argminFirst l < l.length := by
  intro l
  induction l with
  | nil => intro h; exact absurd rfl h
  | cons x t ih =>
    intro _
    by_cases ht : t = []
    · subst ht; simp [argminFirst]
    · simp only [argminFirst, if_neg ht]
      by_cases hlt : t.getD (argminFirst t) 0 < x
      · simp only [if_pos hlt, List.length_cons]
        exact Nat.succ_lt_succ (ih ht)
      · simp only [if_neg hlt, List.length_cons]
        exact Nat.succ_pos _

theorem argminFirst_le : ∀ (l : List ℚ) (j : ℕ), j < l.length →
    l.getD (argminFirst l) 0 ≤ l.getD j 0 := by
  intro l
  induction l with
  | nil => intro j hj; simp at hj
  | cons x t ih =>
    intro j hj
    by_cases ht : t = []
    · subst ht
      simp only [List.length_cons, List.length_nil] at hj
      have hj0 : j = 0 := by omega
      subst hj0
      simp [argminFirst]
    · simp only [argminFirst, if_neg ht]
      by_cases hlt : t.getD (argminFirst t) 0 < x
      · simp only [if_pos hlt, List.getD_cons_succ]
        cases j with
        | zero => simpa using le_of_lt hlt
        | succ j2 =>
          simp only [List.getD_cons_succ]
          exact ih j2 (by simpa using Nat.lt_of_succ_lt_succ hj)
      · simp only [if_neg hlt, List.getD_cons_zero]
        push_neg at hlt
        cases j with
        | zero => simp
        | succ j2 =>
          simp only [List.getD_cons_succ]
          exact le_trans hlt (ih j2 (by simpa using Nat.lt_of_succ_lt_succ hj))

theorem argminFirst_first : ∀ (l : List ℚ) (j : ℕ), j < argminFirst l →
    l.getD (argminFirst l) 0 < l.getD j 0 := by
  intro l
  induction l with
  | nil => intro j hj; simp [argminFirst] at hj
  | cons x t ih =>
    intro j hj
    by_cases ht : t = []
    · subst ht; simp [argminFirst] at hj
    · simp only [argminFirst, if_neg ht] at hj ⊢
      by_cases hlt : t.getD (argminFirst t) 0 < x
      · simp only [if_pos hlt] at hj ⊢
        cases j with
        | zero => simpa using hlt
        | succ j2 =>
          simp only [List.getD_cons_succ]
          exact ih j2 (Nat.lt_of_succ_lt_succ hj)
      · simp only [if_neg hlt] at hj
        omega

theorem nanargminFirst_some : ∀ (l : List (Option ℚ)) (j : ℕ),
    nanargminFirst l = some j → j < l.length ∧ (l.getD j none).isSome := by
  intro l
  induction l with
  | nil => intro j h; simp [nanargminFirst] at h
  | cons o t ih =>
    intro j h
    cases o with
    | none =>
      simp only [nanargminFirst, Option.map_eq_some'] at h
      obtain ⟨j2, hj2, rfl⟩ := h
      obtain ⟨hlt, hs⟩ := ih j2 hj2
      exact ⟨by simpa using Nat.succ_lt_succ hlt, by simpa using hs⟩
    | some x =>
      simp only [nanargminFirst] at h
      split at h
      · simp only [Option.some.injEq] at h
        subst h
        exact ⟨Nat.succ_pos _, by simp⟩
      · next j2 h3 =>
        split at h
        · simp only [Option.some.injEq] at h
          subst h
          exact ⟨Nat.succ_pos _, by simp⟩
        · next v h4 =>
          split at h
          · simp only [Option.some.injEq] at h
            subst h
            obtain ⟨hlt, _⟩ := ih j2 h3
            refine ⟨by simpa using Nat.succ_lt_succ hlt, ?_⟩
            rw [List.getD_cons_succ, h4]
            rfl
          · simp only [Option.some.injEq] at h
            subst h
            exact ⟨Nat.succ_pos _, by simp⟩

theorem nanargminFirst_isSome : ∀ (l : List (Option ℚ)),
    (∃ x ∈ l, x.isSome) → (nanargminFirst l).isSome := by
  intro l
  induction l with
  | nil => rintro ⟨x, hx, _⟩; simp at hx
  | cons o t ih =>
    rintro ⟨x, hx, hs⟩
    cases o with
    | none =>
      have hex : ∃ y ∈ t, y.isSome := by
        rcases List.mem_cons.mp hx with h1 | h1
        · rw [h1] at hs; simp at hs
        · exact ⟨x, h1, hs⟩
      obtain ⟨j2, hj2⟩ := Option.isSome_iff_exists.mp (ih hex)
      simp [nanargminFirst, hj2]
    | some v =>
      simp only [nanargminFirst]
      split
      · simp
      · split
        · simp
        · split <;> simp

theorem greedy_length : ∀ (dist : List ℚ → List ℚ → ℚ) (ts : List (List ℚ))
    (pool : List (Option (List ℚ))) (ms : List ℕ),
    greedy dist ts pool = some ms → ms.length = ts.length := by
  intro dist ts
  induction ts with
  | nil =>
    intro pool ms h
    simp only [greedy, Option.some.injEq] at h
    subst h; rfl
  | cons xt ts ih =>
    intro pool ms h
    simp only [greedy] at h
    split at h
    · simp at h
    · next j hn =>
      simp only [Option.map_eq_some'] at h
      obtain ⟨ms2, hg, rfl⟩ := h
      simp [ih _ _ hg]

theorem greedy_nodup_avail : ∀ (dist : List ℚ → List ℚ → ℚ) (ts : List (List ℚ))
    (pool : List (Option (List ℚ))) (ms : List ℕ),
    greedy dist ts pool = some ms →
    ms.Nodup ∧ ∀ m ∈ ms, m < pool.length ∧ (pool.getD m none).isSome := by
  intro dist ts
  induction ts with
  | nil =>
    intro pool ms h
    simp only [greedy, Option.some.injEq] at h
    subst h
    exact ⟨List.nodup_nil, by simp⟩
  | cons xt ts ih =>
    intro pool ms h
    simp only [greedy] at h
    split at h
    · simp at h
    · next j hn =>
      simp only [Option.map_eq_some'] at h
      obtain ⟨ms2, hg, rfl⟩ := h
      obtain ⟨hjlen, hjsome⟩ := nanargminFirst_some _ _ hn
      rw [List.length_map] at hjlen
      have hpj : (pool.getD j none).isSome := by
        rw [List.getD_eq_getElem?_getD, List.getElem?_map] at hjsome
        rw [List.getD_eq_getElem?_getD]
        rcases hpe : pool[j]? with _ | e
        · rw [hpe] at hjsome; simp at hjsome
        · rw [hpe] at hjsome
          simpa using hjsome
      obtain ⟨hnd, hmem⟩ := ih _ _ hg
      have hne : ∀ m ∈ ms2, m ≠ j := by
        intro m hm hmj
        obtain ⟨hmlt, hmsome⟩ := hmem m hm
        rw [hmj] at hmsome
        rw [List.getD_eq_getElem?_getD, List.getElem?_set_self (by simpa using hjlen)] at hmsome
        simp at hmsome
      refine ⟨List.nodup_cons.mpr ⟨fun hj => (hne j hj) rfl, hnd⟩, ?_⟩
      intro m hm
      rcases List.mem_cons.mp hm with rfl | hm2
      · exact ⟨hjlen, hpj⟩
      · obtain ⟨hmlt, hmsome⟩ := hmem m hm2
        rw [List.length_set] at hmlt
        refine ⟨hmlt, ?_⟩
        rw [List.getD_eq_getElem?_getD, List.getElem?_set_ne (fun h => (hne m hm2) h.symm)] at hmsome
        rw [List.getD_eq_getElem?_getD]
        exact hmsome

theorem countSome_set : ∀ (pool : List (Option (List ℚ))) (j : ℕ),
    j < pool.length → (pool.getD j none).isSome →
    countSome (pool.set j none) + 1 = countSome pool := by
  intro pool
  induction pool with
  | nil => intro j h; simp at h
  | cons o t ih =>
    intro j hj hs
    cases j with
    | zero =>
      simp only [List.getD_cons_zero] at hs
      simp [countSome, List.countP_cons, hs]
    | succ j2 =>
      simp only [List.getD_cons_succ] at hs
      rw [show (o :: t).set (j2 + 1) none = o :: t.set j2 none from rfl]
      simp only [countSome, List.countP_cons]
      have hrec := ih j2 (by simpa using Nat.lt_of_succ_lt_succ hj) hs
      simp only [countSome] at hrec
      omega

theorem greedy_isSome : ∀ (dist : List ℚ → List ℚ → ℚ) (ts : List (List ℚ))
    (pool : List (Option (List ℚ))),
    ts.length ≤ countSome pool → (greedy dist ts pool).isSome := by
  intro dist ts
  induction ts with
  | nil => intro pool _; simp [greedy]
  | cons xt ts ih =>
    intro pool hlen
    simp only [List.length_cons] at hlen
    have hpos : 0 < countSome pool := by omega
    obtain ⟨e, he, hes⟩ := List.countP_pos.mp hpos
    have hex : ∃ x ∈ pool.map (Option.map (fun xc => dist xc xt)), x.isSome := by
      refine ⟨Option.map (fun xc => dist xc xt) e, List.mem_map_of_mem _ he, ?_⟩
      simpa using (by simpa using hes : e.isSome)
    obtain ⟨j, hj⟩ := Option.isSome_iff_exists.mp (nanargminFirst_isSome _ hex)
    obtain ⟨hjlen, hjsome⟩ := nanargminFirst_some _ _ hj
    rw [List.length_map] at hjlen
    have hpj : (pool.getD j none).isSome := by
      rw [List.getD_eq_getElem?_getD, List.getElem?_map] at hjsome
      rw [List.getD_eq_getElem?_getD]
      rcases hpe : pool[j]? with _ | e2
      · rw [hpe] at hjsome; simp at hjsome
      · rw [hpe] at hjsome; simpa using hjsome
    have hcnt := countSome_set pool j hjlen hpj
    have hrec := ih (pool.set j none) (by omega)
    obtain ⟨ms2, hms2⟩ := Option.isSome_iff_exists.mp hrec
    simp [greedy, hj, hms2]

/-! Helper lemmas about selection, reordering and the sample covariance. -/

theorem sel_cons {α : Type} (b db : Bool) (dt : List Bool) (x : α) (lt : List α) :
    sel b (db :: dt) (x :: lt) = if db = b then x :: sel b dt lt else sel b dt lt := by
  by_cases h : db = b <;> simp [sel, List.filterMap_cons, h]

theorem sel_length {α : Type} (b : Bool) : ∀ (d : List Bool) (l : List α),
    l.length = d.length → (sel b d l).length = d.count b := by
  intro d
  induction d with
  | nil => intro l h; simp [sel]
  | cons db dt ih =>
    intro l h
    cases l with
    | nil => simp at h
    | cons x lt =>
      simp only [List.length_cons] at h
      rw [sel_cons]
      by_cases hdb : db = b
      · subst hdb
        simp [List.count_cons, ih lt (by omega)]
      · have hne : (db == b) = false := by
          cases db <;> cases b <;> simp_all
        simp [hdb, List.count_cons, hne, ih lt (by omega)]

theorem sel_subset {α : Type} (b : Bool) (d : List Bool) (l : List α) :
    ∀ x ∈ sel b d l, x ∈ l := by
  intro x hx
  simp only [sel, List.mem_filterMap] at hx
  obtain ⟨p, hp, hpx⟩ := hx
  rcases p with ⟨pb, pa⟩
  by_cases h : pb = b
  · simp only [h, if_pos] at hpx
    obtain rfl : pa = x := by simpa using hpx
    exact (List.mem_zip hp).2
  · simp [h] at hpx

theorem range_map_getD {α : Type} (l : List α) (d : α) :
    (List.range l.length).map (fun j => l.getD j d) = l := by
  apply List.ext_get
  · simp
  · intro n h1 h2
    simp only [List.get_eq_getElem, List.getElem_map, List.getElem_range]
    exact List.getD_eq_getElem l d (by simpa using h2)

theorem reorder_perm {α : Type} (dflt : α) (order : List ℕ) (l : List α)
    (h : order.Perm (List.range l.length)) : (reorder dflt order l).Perm l := by
  have h2 := h.map (fun j => l.getD j dflt)
  rw [range_map_getD] at h2
  exact h2

theorem argsortDesc_perm (l : List ℚ) : (argsortDesc l).Perm (List.range l.length) := by
  unfold argsortDesc
  refine (List.reverse_perm _).trans ?_
  have h1 := (List.perm_insertionSort (fun a b : ℕ × ℚ => a.2 ≤ b.2) l.enum).map Prod.fst
  rw [List.enum_map_fst] at h1
  exact h1

theorem argsortDesc_mem (l : List ℚ) : ∀ j ∈ argsortDesc l, j < l.length := by
  intro j hj
  have := (argsortDesc_perm l).mem_iff.mp hj
  simpa using this

theorem count_true_add_count_false (d : List Bool) :
    d.count true + d.count false = d.length := by
  induction d with
  | nil => simp
  | cons b t ih => cases b <;> simp [List.count_cons] <;> omega

theorem getD_mem {α : Type} (l : List α) (j : ℕ) (d : α) (h : j < l.length) :
    l.getD j d ∈ l := by
  rw [List.getD_eq_getElem l d h]
  exact List.getElem_mem h

theorem reorder_mem {α : Type} (dflt : α) (order : List ℕ) (l : List α)
    (horder : ∀ j ∈ order, j < l.length) :
    ∀ x ∈ reorder dflt order l, x ∈ l := by
  intro x hx
  obtain ⟨j, hj, rfl⟩ := List.mem_map.mp hx
  exact getD_mem l j dflt (horder j hj)

theorem map_getD_in_range {α β : Type} (l : List α) (f : α → β) (i : ℕ) (d : β)
    (da : α) (h : i < l.length) : (l.map f).getD i d = f (l.getD i da) := by
  rw [List.getD_eq_getElem _ _ (by simpa using h), List.getD_eq_getElem _ _ h]
  simp

theorem colMean_perm {r1 r2 : List (List ℚ)} (h : r1.Perm r2) (j : ℕ) :
    colMean r1 j = colMean r2 j := by
  unfold colMean
  rw [(h.map (fun r => r.getD j 0)).sum_eq, h.length_eq]

theorem covMat_perm (k : ℕ) {r1 r2 : List (List ℚ)} (h : r1.Perm r2) :
    covMat k r1 = covMat k r2 := by
  ext a b
  simp only [covMat, Matrix.of_apply]
  simp only [colMean_perm h]
  rw [(h.map (fun r => (r.getD a 0 - colMean r2 a) * (r.getD b 0 - colMean r2 b))).sum_eq,
    h.length_eq]

theorem covMat_const (k : ℕ) (rows : List (List ℚ)) (r : List ℚ)
    (hrows : ∀ s ∈ rows, s = r) (hne : rows ≠ []) : covMat k rows = 0 := by
  have hlen : (rows.length : ℚ) ≠ 0 := by
    intro h
    exact hne (List.length_eq_zero.mp (by exact_mod_cast h))
  have hmean : ∀ j : ℕ, colMean rows j = r.getD j 0 := by
    intro j
    unfold colMean
    rw [List.sum_eq_card_nsmul (rows.map (fun s => s.getD j 0)) (r.getD j 0) ?side]
    case side =>
      intro x hx
      obtain ⟨s, hs, rfl⟩ := List.mem_map.mp hx
      rw [hrows s hs]
    simp only [List.length_map, nsmul_eq_mul]
    field_simp
  ext a b
  simp only [covMat, Matrix.of_apply, Matrix.zero_apply]
  rw [List.sum_eq_card_nsmul _ (0 : ℚ) ?side2]
  case side2 =>
    intro x hx
    obtain ⟨s, hs, rfl⟩ := List.mem_map.mp hx
    rw [hrows s hs, hmean, hmean]
    ring
  simp

theorem euclidD_self (r : List ℚ) : euclidD r r = 0 := by
  unfold euclidD sumSq rowSub
  induction r with
  | nil => simp
  | cons x t ih => simpa using ih

theorem rangeMap_getD (n : ℕ) (f : ℕ → ℚ) (i : ℕ) (h : i < n) :
    ((List.range n).map f).getD i 0 = f i := by
  rw [List.getD_eq_getElem _ _ (by simpa using h)]
  simp

theorem computeITT_true_getD (k : ℕ) (Yc Yt : List ℚ) (Xc Xt : List (List ℚ))
    (ms : List ℕ) (i : ℕ) (hi : i < Yt.length) :
    (computeITT k true Yc Yt Xc Xt ms).getD i 0 =
      Yt.getD i 0 - Yc.getD (ms.getD i 0) 0 -
        ∑ j : Fin k, ((Xt.getD i []).getD j 0 - (Xc.getD (ms.getD i 0) []).getD j 0) *
          olsPL k (ms.map (fun m => Xc.getD m [])) (ms.map (fun m => Yc.getD m 0)) j.succ := by
  simp only [computeITT, if_pos]
  exact rangeMap_getD _ _ i hi

theorem computeITT_false_getD (k : ℕ) (Yc Yt : List ℚ) (Xc Xt : List (List ℚ))
    (ms : List ℕ) (i : ℕ) (hi : i < Yt.length) :
    (computeITT k false Yc Yt Xc Xt ms).getD i 0 =
      Yt.getD i 0 - Yc.getD (ms.getD i 0) 0 := by
  simp only [computeITT, Bool.false_eq_true, if_false]
  exact rangeMap_getD _ _ i hi

/-! Helper lemmas at the level of the matchers. -/

theorem matchIdxWoR_nodup (k : ℕ) (mb : Bool) (Xall Xc Xt : List (List ℚ)) (ms : List ℕ)
    (h : matchIdxWoR k mb Xall Xc Xt = some ms) :
    ms.Nodup ∧ ∀ m ∈ ms, m < Xc.length := by
  unfold matchIdxWoR at h
  cases mb with
  | false =>
    simp only [Bool.false_eq_true, if_false] at h
    obtain ⟨hnd, hmem⟩ := greedy_nodup_avail _ _ _ _ h
    exact ⟨hnd, fun m hm => by simpa using (hmem m hm).1⟩
  | true =>
    rw [if_pos rfl] at h
    by_cases he : Xt.isEmpty
    · rw [if_pos he] at h
      obtain rfl : ms = [] := by simpa using h.symm
      simp
    · rw [if_neg he] at h
      rcases hInv : matInv (covMat k Xall) with _ | iV
      · rw [hInv] at h; simp at h
      · rw [hInv, Option.some_bind] at h
        obtain ⟨hnd, hmem⟩ := greedy_nodup_avail _ _ _ _ h
        exact ⟨hnd, fun m hm => by simpa using (hmem m hm).1⟩

theorem matchIdxWoR_euclid_isSome (k : ℕ) (Xall Xc Xt : List (List ℚ))
    (hle : Xt.length ≤ Xc.length) : (matchIdxWoR k false Xall Xc Xt).isSome := by
  unfold matchIdxWoR
  simp only [Bool.false_eq_true, if_false]
  apply greedy_isSome
  have hcs : countSome (Xc.map some) = Xc.length := by
    unfold countSome
    rw [List.countP_map]
    simp [Function.comp_def]
  omega

theorem matchIdxWoR_length (k : ℕ) (mb : Bool) (Xall Xc Xt : List (List ℚ)) (ms : List ℕ)
    (h : matchIdxWoR k mb Xall Xc Xt = some ms) (hne : ¬ Xt.isEmpty) :
    ms.length = Xt.length := by
  unfold matchIdxWoR at h
  cases mb with
  | false =>
    simp only [Bool.false_eq_true, if_false] at h
    exact greedy_length _ _ _ _ h
  | true =>
    rw [if_pos rfl, if_neg hne] at h
    rcases hInv : matInv (covMat k Xall) with _ | iV
    · rw [hInv] at h; simp at h
    · rw [hInv, Option.some_bind] at h
      exact greedy_length _ _ _ _ h

theorem sum_map_eq_finSum {α : Type} (l : List α) (d : α) (f : α → ℚ) :
    (l.map f).sum = ∑ i : Fin l.length, f (l.getD i d) := by
  induction l with
  | nil => simp
  | cons x t ih =>
    simp only [List.map_cons, List.sum_cons, List.length_cons]
    rw [Fin.sum_univ_succ, ih]
    congr 1

theorem sum_zip_eq_finSum (rows : List (List ℚ)) (y : List ℚ) (f : List ℚ → ℚ)
    (h : rows.length = y.length) :
    ((rows.zip y).map (fun p => f p.1 * p.2)).sum =
      ∑ i : Fin rows.length, f (rows.getD i []) * y.getD i 0 := by
  induction rows generalizing y with
  | nil => simp
  | cons r rt ih =>
    cases y with
    | nil => simp at h
    | cons v yt =>
      simp only [List.zip_cons_cons, List.map_cons, List.sum_cons, List.length_cons]
      rw [Fin.sum_univ_succ, ih yt (by simpa using h)]
      congr 1

theorem olsPL_eq_matrixForm (n k : ℕ) (rows : List (List ℚ)) (y : List ℚ)
    (hn : rows.length = n) (h : rows.length = y.length) :
    olsPL k rows y =
      olsParamsM n (k + 1) (addConstMat n k rows) (fun i => y.getD i 0) := by
  subst hn
  simp only [olsPL, olsParamsM]
  have hG : (Matrix.of fun a b =>
      ((rows.map (fun r => designEntry k r a * designEntry k r b)).sum : ℚ)) =
      (addConstMat rows.length k rows).transpose * (addConstMat rows.length k rows) := by
    ext a b
    simp only [Matrix.of_apply, Matrix.mul_apply, Matrix.transpose_apply, addConstMat]
    rw [sum_map_eq_finSum rows [] (fun r => designEntry k r a * designEntry k r b)]
  rw [hG]
  rcases hInv : matInv ((addConstMat rows.length k rows).transpose *
      (addConstMat rows.length k rows)) with _ | Gi
  · rfl
  · have hv : (fun a => (((rows.zip y).map (fun p => designEntry k p.1 a * p.2)).sum : ℚ)) =
        (addConstMat rows.length k rows).transpose.mulVec (fun i => y.getD i 0) := by
      funext a
      simp only [Matrix.mulVec, Matrix.transpose_apply, addConstMat, Matrix.of_apply,
        Matrix.dotProduct]
      rw [sum_zip_eq_finSum rows y (fun r => designEntry k r a) h]
    rw [hv]

/-! Claim theorems. -/

/-- C3: for every matched assignment, the individual effect of treated unit
`i` with bias correction enabled is the raw outcome difference minus the dot
product of the covariate gap with the slope coefficients (intercept excluded)
of the OLS regression, with intercept, of the matched-control outcomes on the
matched-control covariates; with bias correction disabled it is the raw
outcome difference. -/
theorem matched_effect_bias_correction (k : ℕ) (Yc Yt : List ℚ)
    (Xc Xt : List (List ℚ)) (ms : List ℕ) (i : ℕ) (hi : i < Yt.length) :
    (computeITT k true Yc Yt Xc Xt ms).getD i 0 =
      (Yt.getD i 0 - Yc.getD (ms.getD i 0) 0) -
        ∑ j : Fin k, ((Xt.getD i []).getD j 0 - (Xc.getD (ms.getD i 0) []).getD j 0) *
          specSlope k Yc Xc ms j ∧
    (computeITT k false Yc Yt Xc Xt ms).getD i 0 =
      Yt.getD i 0 - Yc.getD (ms.getD i 0) 0 := by
  refine ⟨?_, computeITT_false_getD k Yc Yt Xc Xt ms i hi⟩
  rw [computeITT_true_getD k Yc Yt Xc Xt ms i hi]
  rw [olsPL_eq_matrixForm ms.length k _ _ (by simp) (by simp)]
  rfl

/-- C2: for every input with `N_t ≤ N_c` (the no-fallback regime), any match
assignment produced by the without-replacement matcher on the
propensity-sorted split is injective — no two treated units share a matched
control index, equivalently a consumed control is never selected again — all
assigned indices are valid control positions, and under the Euclidean metric
an assignment is in fact produced. -/
theorem withoutReplacement_assignment_injective (k : ℕ) (pscore Y : List ℚ)
    (D : List Bool) (X : List (List ℚ)) (mahalanobis : Bool)
    (hcnt : 2 * D.count true ≤ D.length)
    (hp : pscore.length = D.length)
    (hX : X.length = D.length) :
    (∀ ms, matchIdxWoR k mahalanobis (reorder [] (argsortDesc pscore) X)
        (sel false (reorder false (argsortDesc pscore) D) (reorder [] (argsortDesc pscore) X))
        (sel true (reorder false (argsortDesc pscore) D) (reorder [] (argsortDesc pscore) X))
        = some ms →
      ms.Nodup ∧
        ∀ m ∈ ms, m < (sel false (reorder false (argsortDesc pscore) D)
          (reorder [] (argsortDesc pscore) X)).length) ∧
    (matchIdxWoR k false (reorder [] (argsortDesc pscore) X)
        (sel false (reorder false (argsortDesc pscore) D) (reorder [] (argsortDesc pscore) X))
        (sel true (reorder false (argsortDesc pscore) D) (reorder [] (argsortDesc pscore) X))).isSome := by
  constructor
  · intro ms hms
    exact matchIdxWoR_nodup _ _ _ _ _ _ hms
  · apply matchIdxWoR_euclid_isSome
    have hD2 : (reorder false (argsortDesc pscore) D).Perm D := by
      apply reorder_perm
      rw [← hp]
      exact argsortDesc_perm pscore
    have hlen2 : (reorder [] (argsortDesc pscore) X).length =
        (reorder false (argsortDesc pscore) D).length := by
      simp [reorder]
    have hTlen := sel_length true (reorder false (argsortDesc pscore) D)
      (reorder [] (argsortDesc pscore) X) hlen2
    have hClen := sel_length false (reorder false (argsortDesc pscore) D)
      (reorder [] (argsortDesc pscore) X) hlen2
    rw [hTlen, hClen, hD2.count_eq, hD2.count_eq]
    have := count_true_add_count_false D
    omega

theorem mahalanobisSingularNone (k : ℕ) (pscore Y : List ℚ) (D : List Bool)
    (X : List (List ℚ)) (bias : Bool)
    (hdet : (covMat k X).det = 0)
    (ht : 1 ≤ D.count true)
    (hX : X.length = D.length)
    (hp : pscore.length = D.length) :
    MatchingWithReplacement k Y D X true bias = none ∧
    MatchingWithoutReplacement k pscore Y D X true bias = none := by
  have hWR : ∀ b : Bool, MatchingWithReplacement k Y D X true b = none := by
    intro b
    have hXt : ¬ (sel true D X).isEmpty = true := by
      rw [List.isEmpty_iff]
      intro h0
      have hlen := sel_length true D X hX
      rw [h0] at hlen
      simp at hlen
      omega
    simp [MatchingWithReplacement, matchIdxWR, matInv, hXt, hdet]
  refine ⟨hWR bias, ?_⟩
  unfold MatchingWithoutReplacement
  by_cases hg : 2 * D.count true > D.length
  · rw [if_pos hg]
    exact hWR true
  · rw [if_neg hg]
    have hordp : (argsortDesc pscore).Perm (List.range D.length) := by
      rw [← hp]; exact argsortDesc_perm pscore
    have hD2 : (reorder false (argsortDesc pscore) D).Perm D := reorder_perm _ _ _ hordp
    have hX2 : (reorder [] (argsortDesc pscore) X).Perm X := by
      apply reorder_perm
      rw [hX]
      exact hordp
    have hlen2 : (reorder [] (argsortDesc pscore) X).length =
        (reorder false (argsortDesc pscore) D).length := by
      simp [reorder]
    have hXt2 : ¬ (sel true (reorder false (argsortDesc pscore) D)
        (reorder [] (argsortDesc pscore) X)).isEmpty = true := by
      rw [List.isEmpty_iff]
      intro h0
      have hlen := sel_length true (reorder false (argsortDesc pscore) D)
        (reorder [] (argsortDesc pscore) X) hlen2
      rw [h0, hD2.count_eq] at hlen
      simp at hlen
      omega
    have hcov : covMat k (reorder [] (argsortDesc pscore) X) = covMat k X :=
      covMat_perm k hX2
    simp [matchIdxWoR, matInv, hXt2, hcov, hdet]

/-- C7: on any input whose pooled sample covariance matrix is singular — and
which has at least one treated unit, so the per-treated-unit inversion is
reached — Mahalanobis-metric matching signals the numerical inversion error
(modelled as `none`) in both the with-replacement and the without-replacement
estimator, rather than returning any effect value. -/
theorem singular_covariance_error (k : ℕ) (pscore Y : List ℚ) (D : List Bool)
    (X : List (List ℚ)) (bias : Bool)
    (hdet : (covMat k X).det = 0)
    (ht : 1 ≤ D.count true)
    (hX : X.length = D.length)
    (hp : pscore.length = D.length) :
    MatchingWithReplacement k Y D X true bias = none ∧
    MatchingWithoutReplacement k pscore Y D X true bias = none :=
  mahalanobisSingularNone k pscore Y D X bias hdet ht hX hp

theorem computeITT_raw_of_equal_rows (k : ℕ) (b : Bool) (Yc Yt : List ℚ)
    (Xc Xt : List (List ℚ)) (ms : List ℕ) (i : ℕ) (r : List ℚ)
    (hi : i < Yt.length) (hXt : Xt.getD i [] = r) (hXc : Xc.getD (ms.getD i 0) [] = r) :
    (computeITT k b Yc Yt Xc Xt ms).getD i 0 =
      Yt.getD i 0 - Yc.getD (ms.getD i 0) 0 := by
  cases b with
  | false => exact computeITT_false_getD k Yc Yt Xc Xt ms i hi
  | true =>
    rw [computeITT_true_getD k Yc Yt Xc Xt ms i hi]
    rw [Finset.sum_eq_zero (fun j _ => by rw [hXt, hXc]; ring)]
    ring

/-- C9: in with-replacement matching the per-treated-unit assignment attains
the minimal distance over the control pool and, when several controls attain
that minimum, it is the lowest such control index (everything strictly before
it has strictly larger distance, so any attainer is at or after it); as a pure
function of its inputs, repeated runs on identical data coincide. -/
theorem withReplacement_tie_lowest_index (k : ℕ) (Y : List ℚ) (D : List Bool)
    (X : List (List ℚ)) (mahalanobis bias : Bool) (ms : List ℕ) (i : ℕ)
    (hms : matchIdxWR k false X (sel false D X) (sel true D X) = some ms)
    (hi : i < (sel true D X).length)
    (hc : sel false D X ≠ []) :
    (∀ j < (sel false D X).length,
      euclidD ((sel false D X).getD (ms.getD i 0) []) ((sel true D X).getD i []) ≤
        euclidD ((sel false D X).getD j []) ((sel true D X).getD i [])) ∧
    (∀ j < (sel false D X).length,
      euclidD ((sel false D X).getD j []) ((sel true D X).getD i []) =
        euclidD ((sel false D X).getD (ms.getD i 0) []) ((sel true D X).getD i []) →
      ms.getD i 0 ≤ j) ∧
    MatchingWithReplacement k Y D X mahalanobis bias =
      MatchingWithReplacement k Y D X mahalanobis bias := by
  have hmseq : ms = (sel true D X).map
      (fun xt => argminFirst ((sel false D X).map (fun xc => euclidD xc xt))) := by
    unfold matchIdxWR at hms
    simp only [Bool.false_eq_true, if_false, Option.some.injEq] at hms
    exact hms.symm
  have hgd : ms.getD i 0 = argminFirst ((sel false D X).map
      (fun xc => euclidD xc ((sel true D X).getD i []))) := by
    rw [hmseq]
    exact map_getD_in_range _ _ i 0 [] hi
  have hdlen : ((sel false D X).map
      (fun xc => euclidD xc ((sel true D X).getD i []))).length = (sel false D X).length := by
    simp
  have hdne : (sel false D X).map
      (fun xc => euclidD xc ((sel true D X).getD i [])) ≠ [] := by
    intro h0
    exact hc (List.map_eq_nil_iff.mp h0)
  have hdget : ∀ j < (sel false D X).length,
      ((sel false D X).map (fun xc => euclidD xc ((sel true D X).getD i []))).getD j 0 =
        euclidD ((sel false D X).getD j []) ((sel true D X).getD i []) := by
    intro j hj
    exact map_getD_in_range _ _ j 0 [] hj
  have hamlt : ms.getD i 0 < (sel false D X).length := by
    rw [hgd]
    have := argminFirst_lt_length _ hdne
    omega
  refine ⟨?_, ?_, rfl⟩
  · intro j hj
    rw [← hdget j hj, ← hdget (ms.getD i 0) hamlt, hgd]
    exact argminFirst_le _ j (by omega)
  · intro j hj heq
    by_contra hle2
    push_neg at hle2
    have hjlt : j < argminFirst ((sel false D X).map
        (fun xc => euclidD xc ((sel true D X).getD i []))) := by
      rw [← hgd]
      exact hle2
    have hstrict := argminFirst_first _ j hjlt
    rw [← hgd, hdget j hj, hdget (ms.getD i 0) hamlt, heq] at hstrict
    exact lt_irrefl _ hstrict

/-- C5: the OLS effect estimator returns the treatment coefficient of the
single interacted regression plus the dot product of the average demeaned
covariates of the treated units with the interaction coefficients: the code's
`DdX.sum(0)/D.sum()` weighting equals the average over the treated cohort. -/
theorem ols_estimator_treated_average (N k : ℕ) (Y : Fin N → ℚ) (D : Fin N → Bool)
    (X : Matrix (Fin N) (Fin k) ℚ) :
    OLSEstimates N k Y D X = specOLSATT N k Y D X := by
  have hnum : ∀ j : Fin k, (∑ i : Fin N, indQ D i * demean N k X i j) =
      ∑ i ∈ treatedSet N D, demean N k X i j := by
    intro j
    rw [treatedSet, Finset.sum_filter]
    apply Finset.sum_congr rfl
    intro i _
    unfold indQ
    by_cases hDi : D i = true <;> simp [hDi]
  have hden : (∑ i : Fin N, indQ D i) = ((treatedSet N D).card : ℚ) := by
    unfold indQ treatedSet
    rw [← Finset.sum_boole]
  unfold OLSEstimates specOLSATT
  simp only [hnum, hden]

/-- C8: marking a consumed control feeds only the distance scans: the
bias-correction step of without-replacement matching re-selects the original
(unmarked) control covariates from the sorted dataset, so the returned
estimate is exactly the mean of effects computed from the original control
rows and outcomes at the recorded matched indices. -/
theorem withoutReplacement_correction_uses_original (k : ℕ) (pscore Y : List ℚ)
    (D : List Bool) (X : List (List ℚ)) (mahalanobis : Bool) (ms : List ℕ)
    (hguard : ¬ 2 * D.count true > D.length)
    (hms : matchIdxWoR k mahalanobis (reorder [] (argsortDesc pscore) X)
      (sel false (reorder false (argsortDesc pscore) D) (reorder [] (argsortDesc pscore) X))
      (sel true (reorder false (argsortDesc pscore) D) (reorder [] (argsortDesc pscore) X))
      = some ms) :
    MatchingWithoutReplacement k pscore Y D X mahalanobis true =
      some (listMean ((List.range (sel true (reorder false (argsortDesc pscore) D)
          (reorder 0 (argsortDesc pscore) Y)).length).map (fun i =>
        (sel true (reorder false (argsortDesc pscore) D)
            (reorder 0 (argsortDesc pscore) Y)).getD i 0 -
          (sel false (reorder false (argsortDesc pscore) D)
            (reorder 0 (argsortDesc pscore) Y)).getD (ms.getD i 0) 0 -
          ∑ j : Fin k,
            (((sel true (reorder false (argsortDesc pscore) D)
                (reorder [] (argsortDesc pscore) X)).getD i []).getD j 0 -
              ((sel false (reorder false (argsortDesc pscore) D)
                (reorder [] (argsortDesc pscore) X)).getD (ms.getD i 0) []).getD j 0) *
            olsPL k
              (ms.map (fun m => (sel false (reorder false (argsortDesc pscore) D)
                (reorder [] (argsortDesc pscore) X)).getD m []))
              (ms.map (fun m => (sel false (reorder false (argsortDesc pscore) D)
                (reorder 0 (argsortDesc pscore) Y)).getD m 0)) j.succ))) := by
  unfold MatchingWithoutReplacement
  rw [if_neg hguard]
  simp only [hms]
  rfl

theorem lstsq_solves (Nc k : ℕ) (Xc : Matrix (Fin Nc) (Fin k) ℚ) (xt : Fin k → ℚ)
    (hdet : (Xc.transpose * Xc).det ≠ 0) (j : Fin k) :
    ∑ c : Fin Nc, lstsqMinNorm Nc k Xc xt c * Xc c j = xt j := by
  simp only [lstsqMinNorm, matInv, if_neg hdet]
  have h1 : ∑ c : Fin Nc, (Xc.mulVec
        ((((Xc.transpose * Xc).det⁻¹ • (Xc.transpose * Xc).adjugate)).mulVec xt)) c * Xc c j
      = (Xc.transpose.mulVec (Xc.mulVec
        ((((Xc.transpose * Xc).det⁻¹ • (Xc.transpose * Xc).adjugate)).mulVec xt))) j := by
    simp only [Matrix.mulVec, Matrix.dotProduct, Matrix.transpose_apply]
    apply Finset.sum_congr rfl
    intro c _
    ring
  rw [h1, Matrix.mulVec_mulVec, Matrix.mulVec_mulVec]
  have h2 : (Xc.transpose * Xc) *
      ((Xc.transpose * Xc).det⁻¹ • (Xc.transpose * Xc).adjugate) = 1 := by
    rw [Matrix.mul_smul, Matrix.mul_adjugate, smul_smul, inv_mul_cancel₀ hdet, one_smul]
  rw [h2, Matrix.one_mulVec]

/-- C4: synthetic control: for each treated unit the embedded `lstsq` weight
vector solves the least-squares problem over the control covariate rows (with
an invertible control Gram matrix it attains zero residual, hence the
minimum of `‖wᵀ X_c − x_t‖²`), the individual effect is `Y_t[i] − w·Y_c`,
and the returned ATT is the mean of the individual effects. -/
theorem synthetic_control_solves_and_averages (Nc Nt k : ℕ) (Yc : Fin Nc → ℚ)
    (Yt : Fin Nt → ℚ) (Xc : Matrix (Fin Nc) (Fin k) ℚ) (Xt : Matrix (Fin Nt) (Fin k) ℚ)
    (hdet : (Xc.transpose * Xc).det ≠ 0) :
    (∀ i : Fin Nt, ∀ v : Fin Nc → ℚ,
      synthResid Nc k Xc (fun j => Xt i j) (lstsqMinNorm Nc k Xc (fun j => Xt i j)) ≤
        synthResid Nc k Xc (fun j => Xt i j) v) ∧
    Synthetic Nc Nt k Yc Yt Xc Xt =
      (∑ i : Fin Nt, (Yt i - ∑ c : Fin Nc,
        lstsqMinNorm Nc k Xc (fun j => Xt i j) c * Yc c)) / Nt := by
  constructor
  · intro i v
    have hzero : synthResid Nc k Xc (fun j => Xt i j)
        (lstsqMinNorm Nc k Xc (fun j => Xt i j)) = 0 := by
      unfold synthResid
      apply Finset.sum_eq_zero
      intro j _
      rw [lstsq_solves Nc k Xc _ hdet j]
      ring
    rw [hzero]
    unfold synthResid
    apply Finset.sum_nonneg
    intro j _
    positivity
  · rfl

/-- C6 (amended): when the control and treated cohorts have equal size and
every covariate row is identical, matching under the Euclidean metric — in
either mode — selects a control at distance zero (an exact match) and yields
individual effect equal to treated outcome minus matched outcome for both
settings of the bias-correction flag (the correction term vanishes); under the
Mahalanobis metric, however, the pooled sample covariance matrix is the zero
matrix and both modes signal the singular-inversion error instead of
producing effects. -/
theorem degenerate_covariates_matching (k : ℕ) (pscore Y : List ℚ) (D : List Bool)
    (X : List (List ℚ)) (r : List ℚ)
    (hr : ∀ s ∈ X, s = r)
    (hcnt : 2 * D.count true = D.length)
    (hN : D ≠ [])
    (hk : 0 < k)
    (hY : Y.length = D.length)
    (hX : X.length = D.length)
    (hp : pscore.length = D.length) :
    (∀ ms, matchIdxWR k false X (sel false D X) (sel true D X) = some ms →
      ∀ i < (sel true D Y).length,
        euclidD ((sel false D X).getD (ms.getD i 0) []) ((sel true D X).getD i []) = 0 ∧
        ∀ b : Bool, (computeITT k b (sel false D Y) (sel true D Y)
            (sel false D X) (sel true D X) ms).getD i 0 =
          (sel true D Y).getD i 0 - (sel false D Y).getD (ms.getD i 0) 0) ∧
    ((matchIdxWoR k false (reorder [] (argsortDesc pscore) X)
        (sel false (reorder false (argsortDesc pscore) D) (reorder [] (argsortDesc pscore) X))
        (sel true (reorder false (argsortDesc pscore) D)
          (reorder [] (argsortDesc pscore) X))).isSome ∧
      ∀ ms, matchIdxWoR k false (reorder [] (argsortDesc pscore) X)
          (sel false (reorder false (argsortDesc pscore) D) (reorder [] (argsortDesc pscore) X))
          (sel true (reorder false (argsortDesc pscore) D) (reorder [] (argsortDesc pscore) X))
          = some ms →
        ∀ i < (sel true (reorder false (argsortDesc pscore) D)
            (reorder 0 (argsortDesc pscore) Y)).length,
          euclidD ((sel false (reorder false (argsortDesc pscore) D)
              (reorder [] (argsortDesc pscore) X)).getD (ms.getD i 0) [])
            ((sel true (reorder false (argsortDesc pscore) D)
              (reorder [] (argsortDesc pscore) X)).getD i []) = 0 ∧
          ∀ b : Bool, (computeITT k b
              (sel false (reorder false (argsortDesc pscore) D)
                (reorder 0 (argsortDesc pscore) Y))
              (sel true (reorder false (argsortDesc pscore) D)
                (reorder 0 (argsortDesc pscore) Y))
              (sel false (reorder false (argsortDesc pscore) D)
                (reorder [] (argsortDesc pscore) X))
              (sel true (reorder false (argsortDesc pscore) D)
                (reorder [] (argsortDesc pscore) X))
              ms).getD i 0 =
            (sel true (reorder false (argsortDesc pscore) D)
                (reorder 0 (argsortDesc pscore) Y)).getD i 0 -
              (sel false (reorder false (argsortDesc pscore) D)
                (reorder 0 (argsortDesc pscore) Y)).getD (ms.getD i 0) 0) ∧
    (∀ b : Bool, MatchingWithReplacement k Y D X true b = none ∧
      MatchingWithoutReplacement k pscore Y D X true b = none) := by
  have hXne : X ≠ [] := by
    intro h0
    rw [h0] at hX
    simp only [List.length_nil] at hX
    exact hN (List.length_eq_zero.mp hX.symm)
  have hdet : (covMat k X).det = 0 := by
    rw [covMat_const k X r hr hXne]
    exact Matrix.det_zero ⟨⟨0, hk⟩⟩
  have hct : 1 ≤ D.count true := by
    have h1 : D.length ≠ 0 := fun h => hN (List.length_eq_zero.mp h)
    omega
  have hcf : 1 ≤ D.count false := by
    have := count_true_add_count_false D
    omega
  have hYtlen : (sel true D Y).length = D.count true := sel_length true D Y hY
  have hXtlen : (sel true D X).length = D.count true := sel_length true D X hX
  have hXclen : (sel false D X).length = D.count false := sel_length false D X hX
  have hXcne : sel false D X ≠ [] := by
    intro h0
    rw [h0] at hXclen
    simp only [List.length_nil] at hXclen
    omega
  have hordp : (argsortDesc pscore).Perm (List.range D.length) := by
    rw [← hp]
    exact argsortDesc_perm pscore
  have hD2perm : (reorder false (argsortDesc pscore) D).Perm D :=
    reorder_perm _ _ _ hordp
  have hX2len : (reorder [] (argsortDesc pscore) X).length =
      (reorder false (argsortDesc pscore) D).length := by simp [reorder]
  have hY2len : (reorder 0 (argsortDesc pscore) Y).length =
      (reorder false (argsortDesc pscore) D).length := by simp [reorder]
  have hYt2len : (sel true (reorder false (argsortDesc pscore) D)
      (reorder 0 (argsortDesc pscore) Y)).length =
      (reorder false (argsortDesc pscore) D).count true := sel_length _ _ _ hY2len
  have hXt2len : (sel true (reorder false (argsortDesc pscore) D)
      (reorder [] (argsortDesc pscore) X)).length =
      (reorder false (argsortDesc pscore) D).count true := sel_length _ _ _ hX2len
  have hXc2len : (sel false (reorder false (argsortDesc pscore) D)
      (reorder [] (argsortDesc pscore) X)).length =
      (reorder false (argsortDesc pscore) D).count false := sel_length _ _ _ hX2len
  have hrX2 : ∀ s ∈ reorder [] (argsortDesc pscore) X, s = r := by
    intro s hs
    refine hr s (reorder_mem [] (argsortDesc pscore) X ?_ s hs)
    intro j hj
    have := argsortDesc_mem pscore j hj
    omega
  refine ⟨?_, ⟨?_, ?_⟩, fun b => mahalanobisSingularNone k pscore Y D X b hdet hct hX hp⟩
  · intro ms hms i hi
    have hmseq : ms = (sel true D X).map
        (fun xt => argminFirst ((sel false D X).map (fun xc => euclidD xc xt))) := by
      unfold matchIdxWR at hms
      simp only [Bool.false_eq_true, if_false, Option.some.injEq] at hms
      exact hms.symm
    have hiX : i < (sel true D X).length := by omega
    have hms_i : ms.getD i 0 = argminFirst ((sel false D X).map
        (fun xc => euclidD xc ((sel true D X).getD i []))) := by
      rw [hmseq]
      exact map_getD_in_range _ _ i 0 [] hiX
    have hmapne : (sel false D X).map
        (fun xc => euclidD xc ((sel true D X).getD i [])) ≠ [] := by
      intro h0
      exact hXcne (List.map_eq_nil_iff.mp h0)
    have hamlt : ms.getD i 0 < (sel false D X).length := by
      rw [hms_i]
      have := argminFirst_lt_length _ hmapne
      simpa using this
    have hXc_r : (sel false D X).getD (ms.getD i 0) [] = r :=
      hr _ (sel_subset false D X _ (getD_mem _ _ _ hamlt))
    have hXt_r : (sel true D X).getD i [] = r :=
      hr _ (sel_subset true D X _ (getD_mem _ _ _ hiX))
    exact ⟨by rw [hXc_r, hXt_r, euclidD_self], fun b =>
      computeITT_raw_of_equal_rows k b _ _ _ _ ms i r hi hXt_r hXc_r⟩
  · apply matchIdxWoR_euclid_isSome
    rw [hXt2len, hXc2len, hD2perm.count_eq, hD2perm.count_eq]
    have := count_true_add_count_false D
    omega
  · intro ms hms i hi
    have hXt2ne : ¬ (sel true (reorder false (argsortDesc pscore) D)
        (reorder [] (argsortDesc pscore) X)).isEmpty = true := by
      rw [List.isEmpty_iff]
      intro h0
      rw [h0] at hXt2len
      rw [hD2perm.count_eq] at hXt2len
      simp only [List.length_nil] at hXt2len
      omega
    have hmslen : ms.length = (sel true (reorder false (argsortDesc pscore) D)
        (reorder [] (argsortDesc pscore) X)).length :=
      matchIdxWoR_length _ _ _ _ _ _ hms hXt2ne
    have hi2 : i < ms.length := by
      rw [hmslen, hXt2len]
      rw [hYt2len] at hi
      omega
    obtain ⟨hnd, hbound⟩ := matchIdxWoR_nodup _ _ _ _ _ _ hms
    have hamlt : ms.getD i 0 < (sel false (reorder false (argsortDesc pscore) D)
        (reorder [] (argsortDesc pscore) X)).length :=
      hbound _ (getD_mem _ _ _ hi2)
    have hXc_r : (sel false (reorder false (argsortDesc pscore) D)
        (reorder [] (argsortDesc pscore) X)).getD (ms.getD i 0) [] = r :=
      hrX2 _ (sel_subset _ _ _ _ (getD_mem _ _ _ hamlt))
    have hiXt2 : i < (sel true (reorder false (argsortDesc pscore) D)
        (reorder [] (argsortDesc pscore) X)).length := by omega
    have hXt_r : (sel true (reorder false (argsortDesc pscore) D)
        (reorder [] (argsortDesc pscore) X)).getD i [] = r :=
      hrX2 _ (sel_subset _ _ _ _ (getD_mem _ _ _ hiXt2))
    exact ⟨by rw [hXc_r, hXt_r, euclidD_self], fun b =>
      computeITT_raw_of_equal_rows k b _ _ _ _ ms i r hi hXt_r hXc_r⟩

/-- C10: no estimator entry point mutates the caller's arrays: every wrapper
returns the input state unchanged (the without-replacement matcher's
availability marking is private per-call state on copies), and a second call
on the returned state reproduces the first call exactly. -/
theorem estimators_do_not_mutate_inputs (k : ℕ) (pscore : List ℚ) (s : Dataset)
    (mahalanobis bias higher : Bool) :
    (runMatchingWithReplacement k s mahalanobis bias).1 = s ∧
    (runMatchingWithoutReplacement k pscore s mahalanobis bias).1 = s ∧
    (runOLSEstimates k s).1 = s ∧
    (runSyntheticEstimates k s higher).1 = s ∧
    runMatchingWithoutReplacement k pscore
        ((runMatchingWithoutReplacement k pscore s mahalanobis bias).1) mahalanobis bias =
      runMatchingWithoutReplacement k pscore s mahalanobis bias :=
  ⟨rfl, rfl, rfl, rfl, rfl⟩

/-! Evaluation helpers for concrete instances: restatements of the `Fin 2`
matrix lemmas at the syntactic dimension `1 + 1` produced by `olsPL`. -/

theorem det_one_add_one (A : Matrix (Fin (1 + 1)) (Fin (1 + 1)) ℚ) :
    A.det = A 0 0 * A 1 1 - A 0 1 * A 1 0 := Matrix.det_fin_two A

theorem adjugate_one_add_one (A : Matrix (Fin (1 + 1)) (Fin (1 + 1)) ℚ) :
    A.adjugate = Matrix.of ![![A 1 1, -A 0 1], ![-A 1 0, A 0 0]] :=
  Matrix.adjugate_fin_two A

theorem sum_univ_one_add_one (f : Fin (1 + 1) → ℚ) : ∑ i, f i = f 0 + f 1 :=
  Fin.sum_univ_two f

/-- C1 (amended): with more treated than control units the without-replacement
estimator falls back to with-replacement matching on the same data with the
same metric flag, but with the bias-correction flag reset to its default
`True` — the source does not forward it; for `bias_correction = True` this is
exactly the originally claimed flag-for-flag equality. -/
theorem insufficient_controls_fallback (k : ℕ) (pscore Y : List ℚ) (D : List Bool)
    (X : List (List ℚ)) (mahalanobis bias : Bool)
    (hgt : 2 * D.count true > D.length) :
    MatchingWithoutReplacement k pscore Y D X mahalanobis bias =
      MatchingWithReplacement k Y D X mahalanobis true := by
  unfold MatchingWithoutReplacement
  rw [if_pos hgt]

theorem insufficient_controls_fallback_witness :
    2 * ([false, true, true] : List Bool).count true > 3 ∧
    MatchingWithoutReplacement 1 [0, 0, 0] [1, 2, 3] [false, true, true]
        [[0], [1], [2]] false false =
      MatchingWithReplacement 1 [1, 2, 3] [false, true, true] [[0], [1], [2]] false true :=
  ⟨by decide, insufficient_controls_fallback 1 [0, 0, 0] [1, 2, 3] [false, true, true]
    [[0], [1], [2]] false false (by decide)⟩

theorem fallback_olsPL_eval : olsPL 1 [[(0 : ℚ)], [0], [4]] [0, 0, 1] ((0 : Fin 1).succ) = 1 / 4 := by
  unfold olsPL
  have hdet : (Matrix.of fun a b =>
      (([[(0 : ℚ)], [0], [4]].map (fun r => designEntry 1 r a * designEntry 1 r b)).sum) :
      Matrix (Fin (1 + 1)) (Fin (1 + 1)) ℚ).det = 32 := by
    rw [det_one_add_one]
    norm_num [designEntry, Matrix.of_apply]
  simp only [matInv, hdet]
  norm_num [adjugate_one_add_one, Matrix.mulVec, Matrix.dotProduct, sum_univ_one_add_one,
    Matrix.smul_apply, Matrix.of_apply, designEntry, Matrix.cons_val', Matrix.cons_val_zero,
    Matrix.cons_val_one, Matrix.head_cons]

theorem fallback_ITT_eval :
    computeITT 1 true [0, 1] [5, 6, 7] [[(0 : ℚ)], [4]] [[1], [1], [4]] [0, 0, 1] =
      [19 / 4, 23 / 4, 6] := by
  simp only [computeITT, if_true]
  rw [show ([0, 0, 1] : List ℕ).map (fun m => ([[(0 : ℚ)], [4]]).getD m []) = [[0], [0], [4]]
    from by decide]
  rw [show ([0, 0, 1] : List ℕ).map (fun m => ([0, 1] : List ℚ).getD m 0) = [0, 0, 1]
    from by decide]
  rw [show List.range ([(5 : ℚ), 6, 7].length) = [0, 1, 2] from by decide]
  simp only [Fin.sum_univ_one, fallback_olsPL_eval, List.map_cons, List.map_nil]
  norm_num

theorem fallback_match_eval :
    matchIdxWR 1 false [[(0 : ℚ)], [4], [1], [1], [4]] [[0], [4]] [[1], [1], [4]] =
      some [0, 0, 1] := by
  norm_num [matchIdxWR, argminFirst, euclidD, sumSq, rowSub]

theorem fallback_WR_bias_eval :
    MatchingWithReplacement 1 [0, 1, 5, 6, 7] [false, false, true, true, true]
      [[(0 : ℚ)], [4], [1], [1], [4]] false true = some (11 / 2) := by
  unfold MatchingWithReplacement
  rw [show sel false [false, false, true, true, true] ([0, 1, 5, 6, 7] : List ℚ) = [0, 1]
    from by decide]
  rw [show sel true [false, false, true, true, true] ([0, 1, 5, 6, 7] : List ℚ) = [5, 6, 7]
    from by decide]
  rw [show sel false [false, false, true, true, true] ([[(0 : ℚ)], [4], [1], [1], [4]]) =
    [[0], [4]] from by decide]
  rw [show sel true [false, false, true, true, true] ([[(0 : ℚ)], [4], [1], [1], [4]]) =
    [[1], [1], [4]] from by decide]
  simp only [fallback_match_eval, Option.map_some']
  rw [fallback_ITT_eval]
  norm_num [listMean]

theorem fallback_WR_raw_eval :
    MatchingWithReplacement 1 [0, 1, 5, 6, 7] [false, false, true, true, true]
      [[(0 : ℚ)], [4], [1], [1], [4]] false false = some (17 / 3) := by
  unfold MatchingWithReplacement
  rw [show sel false [false, false, true, true, true] ([0, 1, 5, 6, 7] : List ℚ) = [0, 1]
    from by decide]
  rw [show sel true [false, false, true, true, true] ([0, 1, 5, 6, 7] : List ℚ) = [5, 6, 7]
    from by decide]
  rw [show sel false [false, false, true, true, true] ([[(0 : ℚ)], [4], [1], [1], [4]]) =
    [[0], [4]] from by decide]
  rw [show sel true [false, false, true, true, true] ([[(0 : ℚ)], [4], [1], [1], [4]]) =
    [[1], [1], [4]] from by decide]
  simp only [fallback_match_eval, Option.map_some']
  congr 1
  simp only [computeITT, Bool.false_eq_true, if_false]
  rw [show List.range ([(5 : ℚ), 6, 7].length) = [0, 1, 2] from by decide]
  norm_num [listMean]

/-- C1 counterexample: with three treated units, two control units and
`bias_correction=False`, the without-replacement estimator does not return
the result of with-replacement matching under the same flags: the fallback
call silently re-enables bias correction (`11/2` instead of `17/3`). -/
theorem fallback_drops_bias_flag_counterexample :
    MatchingWithoutReplacement 1 [0, 0, 0, 0, 0] [0, 1, 5, 6, 7]
        [false, false, true, true, true] [[(0 : ℚ)], [4], [1], [1], [4]] false false ≠
      MatchingWithReplacement 1 [0, 1, 5, 6, 7] [false, false, true, true, true]
        [[(0 : ℚ)], [4], [1], [1], [4]] false false := by
  have hL : MatchingWithoutReplacement 1 [0, 0, 0, 0, 0] [0, 1, 5, 6, 7]
      [false, false, true, true, true] [[(0 : ℚ)], [4], [1], [1], [4]] false false =
      MatchingWithReplacement 1 [0, 1, 5, 6, 7] [false, false, true, true, true]
        [[(0 : ℚ)], [4], [1], [1], [4]] false true := by
    unfold MatchingWithoutReplacement
    rw [if_pos (by decide)]
  rw [hL, fallback_WR_bias_eval, fallback_WR_raw_eval]
  simp only [ne_eq, Option.some.injEq]
  norm_num

/-- C6 counterexample: on a degenerate input (both covariate rows identical,
one treated and one control unit) Mahalanobis-metric matching does not select
an exact match and produce an effect as the claim demands: the pooled sample
covariance matrix is zero, its inversion fails, and the estimator returns the
error value. -/
theorem degenerate_mahalanobis_counterexample :
    MatchingWithReplacement 2 [0, 3] [false, true] [[(1 : ℚ), 0], [1, 0]] true true =
      none := by
  have hdet : matInv (covMat 2 [[(1 : ℚ), 0], [1, 0]]) = none := by
    norm_num [matInv, covMat, colMean, Matrix.det_fin_two]
  have hXt : ¬ (sel true [false, true] [[(1 : ℚ), 0], [1, 0]]).isEmpty = true := by decide
  simp [MatchingWithReplacement, matchIdxWR, hdet, hXt]

theorem degenerate_covariates_matching_witness :
    MatchingWithoutReplacement 2 [0, 0] [0, 3] [false, true] [[(1 : ℚ), 0], [1, 0]]
      true false = none :=
  ((degenerate_covariates_matching 2 [0, 0] [0, 3] [false, true] [[(1 : ℚ), 0], [1, 0]]
    [1, 0] (by decide) (by decide) (by decide) (by decide) rfl rfl rfl).2.2 false).2

theorem singular_covariance_error_witness :
    MatchingWithReplacement 2 [2, 9] [false, true] [[(1 : ℚ), 0], [1, 0]] true true =
      none ∧
    MatchingWithoutReplacement 2 [0, 0] [2, 9] [false, true] [[(1 : ℚ), 0], [1, 0]]
      true true = none :=
  singular_covariance_error 2 [0, 0] [2, 9] [false, true] [[(1 : ℚ), 0], [1, 0]] true
    (by norm_num [covMat, colMean, Matrix.det_fin_two]) (by decide) rfl rfl

theorem synthetic_control_witness :
    ((!![(1 : ℚ); 2]).transpose * !![(1 : ℚ); 2]).det ≠ 0 ∧
    synthResid 2 1 !![(1 : ℚ); 2] (fun j => (!![(3 : ℚ)]) 0 j)
        (lstsqMinNorm 2 1 !![(1 : ℚ); 2] (fun j => (!![(3 : ℚ)]) 0 j)) ≤
      synthResid 2 1 !![(1 : ℚ); 2] (fun j => (!![(3 : ℚ)]) 0 j) (fun _ => 0) := by
  have hdet : ((!![(1 : ℚ); 2]).transpose * !![(1 : ℚ); 2]).det ≠ 0 := by
    norm_num [Matrix.det_fin_one, Matrix.mul_apply, Fin.sum_univ_two,
      Matrix.transpose_apply, Matrix.vecHead, Matrix.vecTail, Matrix.cons_val',
      Matrix.cons_val_zero, Matrix.cons_val_one, Matrix.head_cons, Matrix.of_apply]
  exact ⟨hdet, (synthetic_control_solves_and_averages 2 1 1 (fun _ => 10) (fun _ => 4)
    !![(1 : ℚ); 2] !![(3 : ℚ)] hdet).1 0 (fun _ => 0)⟩

theorem withoutReplacement_assignment_injective_witness :
    (matchIdxWoR 1 false (reorder [] (argsortDesc ([0, 0] : List ℚ)) [[(0 : ℚ)], [1]])
      (sel false (reorder false (argsortDesc ([0, 0] : List ℚ)) [false, true])
        (reorder [] (argsortDesc ([0, 0] : List ℚ)) [[(0 : ℚ)], [1]]))
      (sel true (reorder false (argsortDesc ([0, 0] : List ℚ)) [false, true])
        (reorder [] (argsortDesc ([0, 0] : List ℚ)) [[(0 : ℚ)], [1]]))).isSome :=
  (withoutReplacement_assignment_injective 1 [0, 0] [5, 6] [false, true] [[(0 : ℚ)], [1]]
    false (by decide) rfl rfl).2

theorem matched_effect_bias_correction_witness :
    (computeITT 1 true [1, 2] [5] [[(1 : ℚ)], [2]] [[3]] [1]).getD 0 0 =
      (([5] : List ℚ).getD 0 0 - ([1, 2] : List ℚ).getD (([1] : List ℕ).getD 0 0) 0) -
        ∑ j : Fin 1, ((([[(3 : ℚ)]] : List (List ℚ)).getD 0 []).getD j 0 -
            (([[(1 : ℚ)], [2]] : List (List ℚ)).getD (([1] : List ℕ).getD 0 0) []).getD j 0) *
          specSlope 1 [1, 2] [[(1 : ℚ)], [2]] [1] j ∧
    (computeITT 1 false [1, 2] [5] [[(1 : ℚ)], [2]] [[3]] [1]).getD 0 0 =
      ([5] : List ℚ).getD 0 0 - ([1, 2] : List ℚ).getD (([1] : List ℕ).getD 0 0) 0 :=
  matched_effect_bias_correction 1 [1, 2] [5] [[(1 : ℚ)], [2]] [[3]] [1] 0 (by decide)

theorem withoutReplacement_correction_uses_original_witness :
    (MatchingWithoutReplacement 1 [0, 0] [5, 7] [false, true] [[(0 : ℚ)], [1]]
      false true).isSome := by
  have hms : matchIdxWoR 1 false (reorder [] (argsortDesc ([0, 0] : List ℚ)) [[(0 : ℚ)], [1]])
      (sel false (reorder false (argsortDesc ([0, 0] : List ℚ)) [false, true])
        (reorder [] (argsortDesc ([0, 0] : List ℚ)) [[(0 : ℚ)], [1]]))
      (sel true (reorder false (argsortDesc ([0, 0] : List ℚ)) [false, true])
        (reorder [] (argsortDesc ([0, 0] : List ℚ)) [[(0 : ℚ)], [1]])) = some [0] := by
    rw [show argsortDesc ([0, 0] : List ℚ) = [1, 0] from by decide]
    rw [show reorder ([] : List ℚ) [1, 0] [[(0 : ℚ)], [1]] = [[1], [0]] from by decide]
    rw [show reorder false [1, 0] [false, true] = [true, false] from by decide]
    rw [show sel false [true, false] [[(1 : ℚ)], [0]] = [[0]] from by decide]
    rw [show sel true [true, false] [[(1 : ℚ)], [0]] = [[1]] from by decide]
    norm_num [matchIdxWoR, greedy, nanargminFirst, euclidD, sumSq, rowSub]
  rw [withoutReplacement_correction_uses_original 1 [0, 0] [5, 7] [false, true]
    [[(0 : ℚ)], [1]] false [0] (by decide) hms]
  rfl

theorem withReplacement_tie_lowest_index_witness :
    (∀ j < (sel false [false, false, true] [[(0 : ℚ)], [0], [0]]).length,
      euclidD ((sel false [false, false, true] [[(0 : ℚ)], [0], [0]]).getD
          (([0] : List ℕ).getD 0 0) [])
        ((sel true [false, false, true] [[(0 : ℚ)], [0], [0]]).getD 0 []) ≤
        euclidD ((sel false [false, false, true] [[(0 : ℚ)], [0], [0]]).getD j [])
          ((sel true [false, false, true] [[(0 : ℚ)], [0], [0]]).getD 0 [])) ∧
    (∀ j < (sel false [false, false, true] [[(0 : ℚ)], [0], [0]]).length,
      euclidD ((sel false [false, false, true] [[(0 : ℚ)], [0], [0]]).getD j [])
          ((sel true [false, false, true] [[(0 : ℚ)], [0], [0]]).getD 0 []) =
        euclidD ((sel false [false, false, true] [[(0 : ℚ)], [0], [0]]).getD
            (([0] : List ℕ).getD 0 0) [])
          ((sel true [false, false, true] [[(0 : ℚ)], [0], [0]]).getD 0 []) →
      ([0] : List ℕ).getD 0 0 ≤ j) ∧
    MatchingWithReplacement 1 [1, 2, 3] [false, false, true] [[(0 : ℚ)], [0], [0]]
        false false =
      MatchingWithReplacement 1 [1, 2, 3] [false, false, true] [[(0 : ℚ)], [0], [0]]
        false false := by
  have hms : matchIdxWR 1 false [[(0 : ℚ)], [0], [0]]
      (sel false [false, false, true] [[(0 : ℚ)], [0], [0]])
      (sel true [false, false, true] [[(0 : ℚ)], [0], [0]]) = some [0] := by
    rw [show sel false [false, false, true] [[(0 : ℚ)], [0], [0]] = [[0], [0]]
      from by decide]
    rw [show sel true [false, false, true] [[(0 : ℚ)], [0], [0]] = [[0]] from by decide]
    norm_num [matchIdxWR, argminFirst, euclidD, sumSq, rowSub]
  exact withReplacement_tie_lowest_index 1 [1, 2, 3] [false, false, true]
    [[(0 : ℚ)], [0], [0]] false false [0] 0 hms (by decide) (by decide)

end Testbed
